import Mathlib

/-!
Shallow embedding of the chunking-and-embedding pipeline in
src/RAG_Samples/southerncross/src/pipeline.py. Python strings are
modelled as lists of characters; the Python list, string and
arithmetic operations used by the script are embedded below, and the
theorems check the documented properties of the pipeline against
them. Division of a Python integer by 4 is exact in double-precision
floating point for every realistic length, so the token counts are
modelled as rationals.
-/

namespace Pipeline

/-- Whitespace characters removed by the Python strip method on ASCII
text: space, tab, newline, carriage return, vertical tab, form feed. -/
def isSpaceChar (c : Char) : Bool :=
  c == ' ' || c == '\t' || c == '\n' || c == '\r' || c == '\x0b' || c == '\x0c'

/-- Removal of trailing whitespace, the right half of the Python strip
method: a character is kept when some character after it survives, and
a last surviving character must not be whitespace. -/
def trimTrailing : List Char → List Char
  | [] => []
  | c :: rest =>
    if trimTrailing rest = [] then (if isSpaceChar c then [] else [c])
    else c :: trimTrailing rest

/-- Model of the Python strip method: remove leading whitespace, then
trailing whitespace. -/
def pyStrip (s : List Char) : List Char :=
  trimTrailing (s.dropWhile isSpaceChar)

/-- Model of the Python replacement of the newline character by a
space: both strings have length one, so it is a character map. -/
def replaceNewline (s : List Char) : List Char :=
  s.map (fun c => if c = '\n' then ' ' else c)

/-- Embedding of text_formatter (pipeline.py line 23): replace each
newline by a space, then strip both ends. -/
def text_formatter (text : List Char) : List Char :=
  pyStrip (replaceNewline text)

/-- Model of the Python split method with the two-character separator
consisting of a period and a space: a left-to-right scan, splitting at
each non-overlapping occurrence of the separator. The empty input
gives one empty piece, as in Python. -/
def split_dot_space : List Char → List (List Char)
  | [] => [[]]
  | [c] => [[c]]
  | c :: d :: rest =>
    if c = '.' ∧ d = ' '
    then [] :: split_dot_space rest
    else (c :: (split_dot_space (d :: rest)).headD []) :: (split_dot_space (d :: rest)).tail

/-- Number of occurrences of the two-character string consisting of a
period and a space: every start position of the text is inspected. -/
def countDotSpace : List Char → Nat
  | [] => 0
  | [_] => 0
  | c :: d :: rest => (if c = '.' ∧ d = ' ' then 1 else 0) + countDotSpace (d :: rest)

/-- Model of the Python replacement of two spaces by one space: a
single left-to-right pass replacing each non-overlapping occurrence of
two consecutive spaces by one space. -/
def collapseDoubleSpace : List Char → List Char
  | [] => []
  | [c] => [c]
  | c :: d :: rest =>
    if c = ' ' ∧ d = ' '
    then ' ' :: collapseDoubleSpace rest
    else c :: collapseDoubleSpace (d :: rest)

/-- Decides whether a text is free of two consecutive spaces. -/
def noDoubleSpace : List Char → Bool
  | c :: d :: rest => !(c == ' ' && d == ' ') && noDoubleSpace (d :: rest)
  | _ => true

/-- Decides whether a text is free of three consecutive spaces. -/
def noTripleSpace : List Char → Bool
  | c :: d :: e :: rest => !(c == ' ' && d == ' ' && e == ' ') && noTripleSpace (d :: e :: rest)
  | _ => true

/-- Model of the Python range function with a positive step, driven by
a fuel argument that makes the recursion structural, so that the
kernel can evaluate it. -/
def pyRangeAux : Nat → Nat → Nat → Nat → List Nat
  | 0, _, _, _ => []
  | fuel + 1, start, stop, step =>
    if start < stop ∧ 0 < step then start :: pyRangeAux fuel (start + step) stop step else []

/-- Model of the Python range function with a positive step. -/
def pyRange (start stop step : Nat) : List Nat :=
  pyRangeAux (stop - start) start stop step

/-- Embedding of split_list (pipeline.py lines 117-118): the list of
slices input_list[i : i + slice_size] for i in
range(0, len(input_list), slice_size); a Python slice starting at i
with length bound slice_size is a drop followed by a take. -/
def split_list {α : Type} (input_list : List α) (slice_size : Nat) : List (List α) :=
  (pyRange 0 input_list.length slice_size).map fun i => (input_list.drop i).take slice_size

/-- Embedding of joined_sentence_chunk (pipeline.py line 142): join
the sentences of a chunk with the empty separator, replace double
spaces by single ones in one pass, strip both ends. -/
def joined_sentence_chunk (sentence_chunk : List (List Char)) : List Char :=
  pyStrip (collapseDoubleSpace sentence_chunk.flatten)

/-- The whitespace-separated words of a text, following the wording of
the specification: the maximal runs of non-whitespace characters. -/
def whitespaceWords (s : List Char) : List (List Char) :=
  (s.splitOnP isSpaceChar).filter (fun w => !w.isEmpty)

/-- One row of pages_and_texts (pipeline.py lines 46-53). -/
structure PageRecord where
  page_number : Nat
  page_char_count : Nat
  page_word_count : Nat
  page_sentence_count_raw : Nat
  page_token_count : ℚ
  text : List Char
deriving DecidableEq

/-- Embedding of the loader body of open_and_read_pdf for one page
(pipeline.py lines 46-53): the raw extracted text is normalized by
text_formatter, and the statistics are computed from the normalized
text. The word count splits on the single space character, the raw
sentence count splits on the period-space separator, and the token
count is the character count divided by four as a rational. -/
def mkPageRecord (page_number : Nat) (raw : List Char) : PageRecord :=
  let text := text_formatter raw
  { page_number := page_number
    page_char_count := text.length
    page_word_count := (text.splitOn ' ').length
    page_sentence_count_raw := (split_dot_space text).length
    page_token_count := (text.length : ℚ) / 4
    text := text }

/-- One row of pages_and_chunks (pipeline.py lines 137-151). -/
structure ChunkRecord where
  page_number : Nat
  sentence_chunk : List Char
  chunk_char_count : Nat
  chunk_word_count : Nat
  chunk_token_count : ℚ
deriving DecidableEq

/-- Embedding of the chunk dictionary construction (pipeline.py lines
137-151): the chunk text is the joined sentence chunk, and the
statistics are computed from it; the chunk word count of the source,
the length of a comprehension over the split on the single space
character, is the length of that split. -/
def mkChunkRecord (page_number : Nat) (sentence_chunk : List (List Char)) : ChunkRecord :=
  let joined := joined_sentence_chunk sentence_chunk
  { page_number := page_number
    sentence_chunk := joined
    chunk_char_count := joined.length
    chunk_word_count := (joined.splitOn ' ').length
    chunk_token_count := (joined.length : ℚ) / 4 }

/-- One output row: a chunk record together with its embedding vector. -/
structure ChunkRow where
  record : ChunkRecord
  embedding : List ℚ
deriving DecidableEq

/-- Default number of sentences per chunk (pipeline.py line 115). -/
def num_sentences_per_chunk : Nat := 10

/-- Embedding of the chunking loops (pipeline.py lines 123-151): for
each page, the normalized text is segmented into sentences by the
external sentencizer, the sentence list is split into chunks of the
configured size, and each chunk becomes a chunk record carrying the
page number. -/
def pages_and_chunks (numPages : Nat) (extract : Nat → List Char)
    (segment : List Char → List (List Char)) (n : Nat) : List ChunkRecord :=
  (List.range numPages).flatMap fun i =>
    (split_list (segment (mkPageRecord i (extract i)).text) n).map
      (mkChunkRecord (mkPageRecord i (extract i)).page_number)

/-- Embedding of the sequential embedding loop (pipeline.py lines
203-204): every chunk record is paired with the embedding of its chunk
text, in chunk order. -/
def pipeline_rows (numPages : Nat) (extract : Nat → List Char)
    (segment : List Char → List (List Char)) (embed : List Char → List ℚ)
    (n : Nat) : List ChunkRow :=
  (pages_and_chunks numPages extract segment n).map fun c => ⟨c, embed c.sentence_chunk⟩

/-- Embedding of the batched pass and the writer (pipeline.py lines
208-227): the chunk texts are collected, the batch encoder is applied
to them and bound to a local value, and the output rows written to the
file are built from pages_and_chunks with the embeddings of the
sequential loop. -/
def pipeline_output (numPages : Nat) (extract : Nat → List Char)
    (segment : List Char → List (List Char)) (embed : List Char → List ℚ)
    (batchEmbed : List (List Char) → List (List ℚ)) (n : Nat) : List ChunkRow :=
  let rows := pipeline_rows numPages extract segment embed n
  let text_chunks := rows.map fun r => r.record.sentence_chunk
  let text_chunk_embeddings := batchEmbed text_chunks
  rows

/-! Helper lemmas about the embedded Python range and slicing. -/

theorem pyRangeAux_fuel (f1 : Nat) : ∀ f2 start stop step : Nat,
    stop - start ≤ f1 → stop - start ≤ f2 →
    pyRangeAux f1 start stop step = pyRangeAux f2 start stop step := by
  induction f1 with
  | zero =>
    intro f2 start stop step h1 h2
    cases f2 with
    | zero => rfl
    | succ f2 =>
      have : ¬ (start < stop ∧ 0 < step) := by omega
      simp [pyRangeAux, this]
  | succ f1 ih =>
    intro f2 start stop step h1 h2
    cases f2 with
    | zero =>
      have : ¬ (start < stop ∧ 0 < step) := by omega
      simp [pyRangeAux, this]
    | succ f2 =>
      simp only [pyRangeAux]
      by_cases h : start < stop ∧ 0 < step
      · simp only [if_pos h]
        rw [ih f2 (start + step) stop step (by omega) (by omega)]
      · simp [h]

theorem pyRange_eq (start stop step : Nat) :
    pyRange start stop step =
      if start < stop ∧ 0 < step then start :: pyRange (start + step) stop step else [] := by
  unfold pyRange
  by_cases h : start < stop ∧ 0 < step
  · have hk : stop - start = (stop - start - 1) + 1 := by omega
    rw [hk]
    simp only [pyRangeAux, if_pos h]
    rw [pyRangeAux_fuel (stop - start - 1) (stop - (start + step)) (start + step) stop step
      (by omega) (by omega)]
  · cases hk : stop - start with
    | zero => simp [pyRangeAux, h]
    | succ k => simp [pyRangeAux, h]

theorem pyRange_shift (k : Nat) : ∀ a b c d : Nat, b - a ≤ k →
    pyRange (a + d) (b + d) c = (pyRange a b c).map (· + d) := by
  induction k with
  | zero =>
    intro a b c d h
    rw [pyRange_eq, pyRange_eq a b c]
    have h1 : ¬ (a < b ∧ 0 < c) := by omega
    have h2 : ¬ (a + d < b + d ∧ 0 < c) := by omega
    simp [h1, h2]
  | succ k ih =>
    intro a b c d h
    rw [pyRange_eq, pyRange_eq a b c]
    by_cases hab : a < b ∧ 0 < c
    · have h1 : a + d < b + d ∧ 0 < c := by omega
      rw [if_pos h1, if_pos hab]
      rw [show a + d + c = (a + c) + d by omega]
      rw [ih (a + c) b c d (by omega)]
      simp
    · have h2 : ¬ (a + d < b + d ∧ 0 < c) := by omega
      simp [hab, h2]

theorem split_list_nil {α : Type} (n : Nat) : split_list ([] : List α) n = [] := rfl

theorem split_list_cons {α : Type} (l : List α) (n : Nat) (hl : l ≠ []) (hn : 0 < n) :
    split_list l n = l.take n :: split_list (l.drop n) n := by
  unfold split_list
  have hlen : 0 < l.length := List.length_pos.mpr hl
  rw [pyRange_eq]
  rw [if_pos ⟨hlen, hn⟩]
  simp only [List.map_cons, List.drop_zero, Nat.zero_add]
  congr 1
  by_cases hle : n < l.length
  · have : pyRange n l.length n = (pyRange 0 (l.length - n) n).map (· + n) := by
      have := pyRange_shift (l.length - n) 0 (l.length - n) n n (le_refl _)
      rw [show (0 : Nat) + n = n by omega, show l.length - n + n = l.length by omega] at this
      exact this
    rw [this, List.map_map, List.length_drop]
    apply List.map_congr_left
    intro i _
    simp only [Function.comp]
    rw [List.drop_drop]
    congr 2
    omega
  · have h1 : ¬ (n < l.length ∧ 0 < n) := by omega
    rw [pyRange_eq, if_neg h1]
    have : l.drop n = [] := by
      apply List.drop_eq_nil_of_le
      omega
    rw [this]
    rfl

theorem split_list_flatten_aux {α : Type} (n : Nat) (hn : 0 < n) (k : Nat) :
    ∀ l : List α, l.length ≤ k → (split_list l n).flatten = l := by
  induction k with
  | zero =>
    intro l hl
    have : l = [] := by
      cases l with
      | nil => rfl
      | cons a t => simp at hl
    subst this
    rfl
  | succ k ih =>
    intro l hl
    rcases eq_or_ne l [] with rfl | hne
    · rfl
    · rw [split_list_cons l n hne hn]
      rw [List.flatten_cons]
      rw [ih (l.drop n)]
      · exact List.take_append_drop n l
      · have h1 : 0 < l.length := List.length_pos.mpr hne
        rw [List.length_drop]
        omega

theorem split_list_flatten {α : Type} (l : List α) (n : Nat) (hn : 0 < n) :
    (split_list l n).flatten = l :=
  split_list_flatten_aux n hn l.length l le_rfl

theorem split_list_length_aux {α : Type} (n : Nat) (hn : 0 < n) (k : Nat) :
    ∀ l : List α, l.length ≤ k → (split_list l n).length = (l.length + n - 1) / n := by
  induction k with
  | zero =>
    intro l hl
    have hz : l.length = 0 := by omega
    have : l = [] := List.length_eq_zero.mp hz
    subst this
    rw [split_list_nil]
    simp only [List.length_nil]
    rw [show (0 : Nat) + n - 1 = n - 1 from by omega]
    exact (Nat.div_eq_of_lt (by omega)).symm
  | succ k ih =>
    intro l hl
    rcases eq_or_ne l [] with rfl | hne
    · rw [split_list_nil]
      simp only [List.length_nil]
      rw [show (0 : Nat) + n - 1 = n - 1 from by omega]
      exact (Nat.div_eq_of_lt (by omega)).symm
    · rw [split_list_cons l n hne hn]
      have h1 : 0 < l.length := List.length_pos.mpr hne
      rw [List.length_cons, ih (l.drop n) (by rw [List.length_drop]; omega)]
      rw [List.length_drop]
      rcases le_or_lt l.length n with hle | hlt
      · have e1 : l.length - n = 0 := by omega
        rw [e1]
        have e2 : (0 + n - 1) / n = 0 := Nat.div_eq_of_lt (by omega)
        rw [e2]
        have e3 : l.length + n - 1 = (l.length - 1) + n := by omega
        rw [e3, Nat.add_div_right _ hn]
        have : (l.length - 1) / n = 0 := Nat.div_eq_of_lt (by omega)
        omega
      · have e1 : l.length - n + n - 1 = (l.length - n - 1) + n := by omega
        have e2 : l.length + n - 1 = (l.length - 1) + n := by omega
        rw [e1, e2, Nat.add_div_right _ hn, Nat.add_div_right _ hn]
        have e3 : l.length - 1 = (l.length - n - 1) + n := by omega
        rw [e3, Nat.add_div_right _ hn]

theorem split_list_length {α : Type} (l : List α) (n : Nat) (hn : 0 < n) :
    (split_list l n).length = (l.length + n - 1) / n :=
  split_list_length_aux n hn l.length l le_rfl

theorem split_list_ne_nil {α : Type} (l : List α) (n : Nat) (hl : l ≠ []) (hn : 0 < n) :
    split_list l n ≠ [] := by
  rw [split_list_cons l n hl hn]
  simp

theorem split_list_dropLast_aux {α : Type} (n : Nat) (hn : 0 < n) (k : Nat) :
    ∀ l : List α, l.length ≤ k → ∀ c ∈ (split_list l n).dropLast, c.length = n := by
  induction k with
  | zero =>
    intro l hl c hc
    have : l = [] := by
      cases l with
      | nil => rfl
      | cons a t => simp at hl
    subst this
    simp [split_list_nil] at hc
  | succ k ih =>
    intro l hl c hc
    rcases eq_or_ne l [] with rfl | hne
    · simp [split_list_nil] at hc
    · rw [split_list_cons l n hne hn] at hc
      have h1 : 0 < l.length := List.length_pos.mpr hne
      rcases eq_or_ne (l.drop n) [] with hdrop | hdrop
      · rw [hdrop, split_list_nil] at hc
        simp at hc
      · have hrest : split_list (l.drop n) n ≠ [] := split_list_ne_nil _ n hdrop hn
        rw [List.dropLast_cons_of_ne_nil hrest] at hc
        rcases List.mem_cons.mp hc with rfl | hc
        · have hlen : n < l.length := by
            by_contra hcon
            exact hdrop (List.drop_eq_nil_of_le (by omega))
          rw [List.length_take]
          omega
        · exact ih (l.drop n) (by rw [List.length_drop]; omega) c hc

theorem split_list_dropLast {α : Type} (l : List α) (n : Nat) (hn : 0 < n) :
    ∀ c ∈ (split_list l n).dropLast, c.length = n :=
  split_list_dropLast_aux n hn l.length l le_rfl

theorem getLast_cons_of_rest_ne_nil {α : Type} (a : α) (l : List α) (h : l ≠ []) :
    (a :: l).getLast? = l.getLast? := by
  cases l with
  | nil => exact absurd rfl h
  | cons b t => exact List.getLast?_cons_cons

theorem split_list_getLast_aux {α : Type} (n : Nat) (hn : 0 < n) (k : Nat) :
    ∀ l : List α, l.length ≤ k → l ≠ [] → ∀ c, (split_list l n).getLast? = some c →
      c.length = l.length - n * ((l.length - 1) / n) := by
  induction k with
  | zero =>
    intro l hl hne c hc
    cases l with
    | nil => exact absurd rfl hne
    | cons a t => simp at hl
  | succ k ih =>
    intro l hl hne c hc
    rw [split_list_cons l n hne hn] at hc
    have h1 : 0 < l.length := List.length_pos.mpr hne
    rcases eq_or_ne (l.drop n) [] with hdrop | hdrop
    · have hle : l.length ≤ n := by
        by_contra hcon
        have : l.drop n ≠ [] := by
          rw [← List.length_pos, List.length_drop]
          omega
        exact this hdrop
      rw [hdrop, split_list_nil] at hc
      simp only [List.getLast?_singleton, Option.some.injEq] at hc
      subst hc
      have e1 : (l.length - 1) / n = 0 := Nat.div_eq_of_lt (by omega)
      rw [e1, List.length_take]
      simp
      omega
    · have hrest : split_list (l.drop n) n ≠ [] := split_list_ne_nil _ n hdrop hn
      have hlt : n < l.length := by
        by_contra hcon
        exact hdrop (List.drop_eq_nil_of_le (by omega))
      rw [getLast_cons_of_rest_ne_nil _ _ hrest] at hc
      have := ih (l.drop n) (by rw [List.length_drop]; omega) hdrop c hc
      rw [List.length_drop] at this
      rw [this]
      have e1 : l.length - 1 = (l.length - n - 1) + n := by omega
      rw [e1, Nat.add_div_right _ hn]
      rw [Nat.mul_add, Nat.mul_one]
      omega

theorem split_list_getLast {α : Type} (l : List α) (n : Nat) (hn : 0 < n) (hne : l ≠ []) :
    ∀ c, (split_list l n).getLast? = some c → c.length = l.length - n * ((l.length - 1) / n) :=
  split_list_getLast_aux n hn l.length l le_rfl hne

theorem split_list_bounds_aux {α : Type} (n : Nat) (hn : 0 < n) (k : Nat) :
    ∀ l : List α, l.length ≤ k → ∀ c ∈ split_list l n, 1 ≤ c.length ∧ c.length ≤ n := by
  induction k with
  | zero =>
    intro l hl c hc
    have : l = [] := by
      cases l with
      | nil => rfl
      | cons a t => simp at hl
    subst this
    simp [split_list_nil] at hc
  | succ k ih =>
    intro l hl c hc
    rcases eq_or_ne l [] with rfl | hne
    · simp [split_list_nil] at hc
    · rw [split_list_cons l n hne hn] at hc
      have h1 : 0 < l.length := List.length_pos.mpr hne
      rcases List.mem_cons.mp hc with rfl | hc
      · rw [List.length_take]
        constructor
        · omega
        · omega
      · exact ih (l.drop n) (by rw [List.length_drop]; omega) c hc

theorem split_list_bounds {α : Type} (l : List α) (n : Nat) (hn : 0 < n) :
    ∀ c ∈ split_list l n, 1 ≤ c.length ∧ c.length ≤ n :=
  split_list_bounds_aux n hn l.length l le_rfl

/-! Helper lemmas about the embedded Python string operations. -/

theorem split_dot_space_ne_nil : ∀ s : List Char, split_dot_space s ≠ [] := by
  intro s
  match s with
  | [] => simp [split_dot_space]
  | [c] => simp [split_dot_space]
  | c :: d :: rest =>
    by_cases h : c = '.' ∧ d = ' ' <;> simp [split_dot_space, h]

theorem countDotSpace_space_cons (t : List Char) :
    countDotSpace (' ' :: t) = countDotSpace t := by
  cases t with
  | nil => rfl
  | cons e t' =>
    have : ¬ (' ' = '.' ∧ e = ' ') := by
      intro h
      exact absurd h.1 (by decide)
    simp [countDotSpace, this]

theorem split_dot_space_length_aux (k : Nat) : ∀ s : List Char, s.length ≤ k →
    (split_dot_space s).length = countDotSpace s + 1 := by
  induction k with
  | zero =>
    intro s hs
    have : s = [] := by
      cases s with
      | nil => rfl
      | cons a t => simp at hs
    subst this
    rfl
  | succ k ih =>
    intro s hs
    match s with
    | [] => rfl
    | [c] => rfl
    | c :: d :: rest =>
      by_cases h : c = '.' ∧ d = ' '
      · obtain ⟨rfl, rfl⟩ := h
        rw [show split_dot_space ('.' :: ' ' :: rest) = [] :: split_dot_space rest from by
          simp [split_dot_space]]
        rw [show countDotSpace ('.' :: ' ' :: rest) = 1 + countDotSpace (' ' :: rest) from by
          simp [countDotSpace]]
        rw [countDotSpace_space_cons]
        simp only [List.length_cons]
        rw [ih rest (by simp at hs; omega)]
        omega
      · simp only [split_dot_space, if_neg h, List.length_cons, List.length_tail]
        have hne := split_dot_space_ne_nil (d :: rest)
        have hpos : 0 < (split_dot_space (d :: rest)).length := List.length_pos.mpr hne
        rw [ih (d :: rest) (by simp at hs ⊢; omega)]
        simp only [countDotSpace, if_neg h]
        omega

theorem split_dot_space_length (s : List Char) :
    (split_dot_space s).length = countDotSpace s + 1 :=
  split_dot_space_length_aux s.length s le_rfl

theorem length_modifyHead_eq {α : Type} (f : α → α) (l : List α) :
    (l.modifyHead f).length = l.length := by
  cases l <;> simp [List.modifyHead]

theorem length_splitOnP (p : Char → Bool) (s : List Char) :
    (s.splitOnP p).length = s.countP p + 1 := by
  induction s with
  | nil => simp [List.splitOnP_nil]
  | cons c t ih =>
    rw [List.splitOnP_cons]
    by_cases h : p c
    · simp [h, ih, List.countP_cons]
    · simp [h, ih, List.countP_cons, length_modifyHead_eq]

theorem length_splitOn_space (s : List Char) :
    (s.splitOn ' ').length = s.count ' ' + 1 := by
  rw [show s.splitOn ' ' = s.splitOnP (· == ' ') from rfl]
  rw [length_splitOnP]
  rfl

theorem noDoubleSpace_tail (c : Char) (t : List Char)
    (h : noDoubleSpace (c :: t) = true) : noDoubleSpace t = true := by
  cases t with
  | nil => rfl
  | cons e t' =>
    simp only [noDoubleSpace, Bool.and_eq_true] at h
    exact h.2

theorem noTripleSpace_tail (c : Char) (t : List Char)
    (h : noTripleSpace (c :: t) = true) : noTripleSpace t = true := by
  cases t with
  | nil => rfl
  | cons e t' =>
    cases t' with
    | nil => rfl
    | cons f t'' =>
      simp only [noTripleSpace, Bool.and_eq_true] at h
      exact h.2

theorem collapseDoubleSpace_cons_shape (d : Char) (rest : List Char) :
    ∃ ts, collapseDoubleSpace (d :: rest) = d :: ts := by
  cases rest with
  | nil => exact ⟨[], rfl⟩
  | cons e r =>
    by_cases h : d = ' ' ∧ e = ' '
    · refine ⟨collapseDoubleSpace r, ?_⟩
      rw [h.1]
      simp [collapseDoubleSpace, h.2]
    · exact ⟨collapseDoubleSpace (e :: r), by simp [collapseDoubleSpace, h]⟩

theorem noDouble_collapse_aux (k : Nat) : ∀ s : List Char, s.length ≤ k →
    noTripleSpace s = true → noDoubleSpace (collapseDoubleSpace s) = true := by
  induction k with
  | zero =>
    intro s hs _
    have : s = [] := by
      cases s with
      | nil => rfl
      | cons a t => simp at hs
    subst this
    rfl
  | succ k ih =>
    intro s hs ht
    match s with
    | [] => rfl
    | [c] => rfl
    | c :: d :: rest =>
      by_cases h : c = ' ' ∧ d = ' '
      · obtain ⟨rfl, rfl⟩ := h
        rw [show collapseDoubleSpace (' ' :: ' ' :: rest) = ' ' :: collapseDoubleSpace rest
          from by simp [collapseDoubleSpace]]
        match rest with
        | [] => rfl
        | e :: r =>
          have he : ¬ (e = ' ') := by
            intro hee
            subst hee
            simp [noTripleSpace] at ht
          have ht' : noTripleSpace (e :: r) = true := by
            simp only [noTripleSpace, Bool.and_eq_true] at ht
            exact noTripleSpace_tail ' ' (e :: r) ht.2
          obtain ⟨ts, hts⟩ := collapseDoubleSpace_cons_shape e r
          rw [hts]
          have hnd : noDoubleSpace (e :: ts) = true := by
            rw [← hts]
            exact ih (e :: r) (by simp at hs ⊢; omega) ht'
          simp only [noDoubleSpace, Bool.and_eq_true]
          refine ⟨?_, hnd⟩
          simp [he]
      · rw [show collapseDoubleSpace (c :: d :: rest) = c :: collapseDoubleSpace (d :: rest)
          from by simp [collapseDoubleSpace, h]]
        obtain ⟨ts, hts⟩ := collapseDoubleSpace_cons_shape d rest
        rw [hts]
        have ht' : noTripleSpace (d :: rest) = true := noTripleSpace_tail c (d :: rest) ht
        have hnd : noDoubleSpace (d :: ts) = true := by
          rw [← hts]
          exact ih (d :: rest) (by simp at hs ⊢; omega) ht'
        simp only [noDoubleSpace, Bool.and_eq_true]
        refine ⟨?_, hnd⟩
        rcases not_and_or.mp h with hc | hd
        · simp [hc]
        · simp [hd]

theorem noDouble_collapse (s : List Char) (h : noTripleSpace s = true) :
    noDoubleSpace (collapseDoubleSpace s) = true :=
  noDouble_collapse_aux s.length s le_rfl h

theorem noDouble_dropWhile (p : Char → Bool) (s : List Char)
    (h : noDoubleSpace s = true) : noDoubleSpace (s.dropWhile p) = true := by
  induction s with
  | nil => rfl
  | cons c t ih =>
    rw [List.dropWhile_cons]
    by_cases hp : p c
    · simp only [hp, if_true]
      exact ih (noDoubleSpace_tail c t h)
    · simp only [hp, Bool.false_eq_true, if_false]
      exact h

theorem noDouble_append_left (t u : List Char)
    (h : noDoubleSpace (t ++ u) = true) : noDoubleSpace t = true := by
  induction t with
  | nil => rfl
  | cons c t' ih =>
    cases t' with
    | nil => rfl
    | cons e t'' =>
      simp only [List.cons_append, noDoubleSpace, Bool.and_eq_true] at h ⊢
      exact ⟨h.1, by
        have := ih
        simp only [List.cons_append] at this
        exact this h.2⟩

theorem trimTrailing_append (s : List Char) :
    ∃ u, s = trimTrailing s ++ u := by
  induction s with
  | nil => exact ⟨[], rfl⟩
  | cons c rest ih =>
    by_cases h : trimTrailing rest = []
    · by_cases hsp : isSpaceChar c
      · refine ⟨c :: rest, ?_⟩
        simp [trimTrailing, h, hsp]
      · refine ⟨rest, ?_⟩
        simp [trimTrailing, h, hsp]
    · obtain ⟨u, hu⟩ := ih
      refine ⟨u, ?_⟩
      rw [show trimTrailing (c :: rest) = c :: trimTrailing rest from by
        simp [trimTrailing, h]]
      rw [List.cons_append, ← hu]

theorem noDouble_trimTrailing (s : List Char)
    (h : noDoubleSpace s = true) : noDoubleSpace (trimTrailing s) = true := by
  obtain ⟨u, hu⟩ := trimTrailing_append s
  rw [hu] at h
  exact noDouble_append_left _ _ h

theorem noDouble_pyStrip (s : List Char)
    (h : noDoubleSpace s = true) : noDoubleSpace (pyStrip s) = true :=
  noDouble_trimTrailing _ (noDouble_dropWhile _ _ h)

theorem dropWhile_head?_false (p : Char → Bool) : ∀ (s : List Char) (c : Char),
    (s.dropWhile p).head? = some c → p c = false := by
  intro s
  induction s with
  | nil =>
    intro c hc
    simp at hc
  | cons a t ih =>
    intro c hc
    rw [List.dropWhile_cons] at hc
    by_cases hp : p a
    · simp only [hp, if_true] at hc
      exact ih c hc
    · simp only [hp, Bool.false_eq_true, if_false, List.head?_cons, Option.some.injEq] at hc
      subst hc
      simp [hp]

theorem trimTrailing_head? (s : List Char) (c : Char)
    (h : (trimTrailing s).head? = some c) : s.head? = some c := by
  obtain ⟨u, hu⟩ := trimTrailing_append s
  rw [hu]
  cases htr : trimTrailing s with
  | nil =>
    rw [htr] at h
    simp at h
  | cons x xs =>
    rw [htr] at h
    simp only [List.head?_cons, Option.some.injEq] at h
    subst h
    simp

theorem pyStrip_head? (s : List Char) (c : Char)
    (h : (pyStrip s).head? = some c) : isSpaceChar c = false := by
  unfold pyStrip at h
  exact dropWhile_head?_false isSpaceChar s c (trimTrailing_head? _ c h)

theorem trimTrailing_getLast? : ∀ (s : List Char) (c : Char),
    (trimTrailing s).getLast? = some c → isSpaceChar c = false := by
  intro s
  induction s with
  | nil =>
    intro c hc
    simp [trimTrailing] at hc
  | cons a rest ih =>
    intro c hc
    by_cases h : trimTrailing rest = []
    · by_cases hsp : isSpaceChar a
      · rw [show trimTrailing (a :: rest) = [] from by simp [trimTrailing, h, hsp]] at hc
        simp at hc
      · rw [show trimTrailing (a :: rest) = [a] from by simp [trimTrailing, h, hsp]] at hc
        simp only [List.getLast?_singleton, Option.some.injEq] at hc
        subst hc
        simpa using hsp
    · rw [show trimTrailing (a :: rest) = a :: trimTrailing rest from by
        simp [trimTrailing, h]] at hc
      rw [getLast_cons_of_rest_ne_nil a _ h] at hc
      exact ih c hc

theorem pyStrip_getLast? (s : List Char) (c : Char)
    (h : (pyStrip s).getLast? = some c) : isSpaceChar c = false :=
  trimTrailing_getLast? _ c h

/-! Claim theorems. -/

/-- C1: for a positive chunk size n and a sentence list with S
elements, split_list produces exactly the ceiling of S / n chunks,
which is (S + n - 1) / n; every chunk except the last has exactly n
sentences; the last chunk, which exists whenever S is positive, has
S - n * ((S - 1) / n) sentences; and the empty list yields zero
chunks. -/
theorem chunker_chunk_counts (l : List (List Char)) (n : Nat) (hn : 0 < n) :
    (split_list l n).length = l.length ⌈/⌉ n
    ∧ (∀ c ∈ (split_list l n).dropLast, c.length = n)
    ∧ (l ≠ [] → split_list l n ≠ [])
    ∧ (∀ c, (split_list l n).getLast? = some c →
        c.length = l.length - n * ((l.length - 1) / n))
    ∧ (l = [] → split_list l n = []) := by
  refine ⟨?_, split_list_dropLast l n hn,
    fun h => split_list_ne_nil l n h hn, ?_, fun h => by rw [h]; rfl⟩
  · rw [Nat.ceilDiv_eq_add_pred_div]
    exact split_list_length l n hn
  · intro c hc
    rcases eq_or_ne l [] with rfl | hne
    · rw [split_list_nil] at hc
      simp at hc
    · exact split_list_getLast l n hn hne c hc

/-- Witness for C1 at a concrete input: three sentences and chunk size
two give two chunks. -/
theorem chunker_chunk_counts_witness :
    (split_list [['a'], ['b'], ['c']] 2).length
      = ([['a'], ['b'], ['c']] : List (List Char)).length ⌈/⌉ 2 :=
  (chunker_chunk_counts [['a'], ['b'], ['c']] 2 (by decide)).1

/-- C2: concatenating the chunks produced by split_list, in order,
reconstructs the original sentence list. -/
theorem chunker_flatten_reconstructs (l : List (List Char)) (n : Nat) (hn : 0 < n) :
    (split_list l n).flatten = l :=
  split_list_flatten l n hn

/-- Witness for C2 at a concrete input. -/
theorem chunker_flatten_reconstructs_witness :
    (split_list [['a'], ['b'], ['c']] 2).flatten = [['a'], ['b'], ['c']] :=
  chunker_flatten_reconstructs [['a'], ['b'], ['c']] 2 (by decide)

/-- C3, counterexample to the claim as stated: a chunk whose single
sentence contains a run of three spaces joins, through the single
replacement pass of the source, to a text that still contains two
consecutive spaces. -/
theorem chunk_join_counterexample :
    noDoubleSpace (joined_sentence_chunk [['a', ' ', ' ', ' ', 'b']]) = false := by decide

/-- C3 as amended: the stored chunk text is the concatenation of the
sentence strings with one left-to-right pass replacing each
non-overlapping occurrence of two consecutive spaces by one, then
stripped at both ends; the result never has leading or trailing
whitespace, and it has no two consecutive spaces provided the
concatenation has no run of three or more spaces. -/
theorem chunk_join_amended (sentence_chunk : List (List Char)) :
    joined_sentence_chunk sentence_chunk
      = pyStrip (collapseDoubleSpace sentence_chunk.flatten)
    ∧ (∀ c, (joined_sentence_chunk sentence_chunk).head? = some c → isSpaceChar c = false)
    ∧ (∀ c, (joined_sentence_chunk sentence_chunk).getLast? = some c → isSpaceChar c = false)
    ∧ (noTripleSpace sentence_chunk.flatten = true →
        noDoubleSpace (joined_sentence_chunk sentence_chunk) = true) :=
  ⟨rfl, fun c hc => pyStrip_head? _ c hc, fun c hc => pyStrip_getLast? _ c hc,
   fun h => noDouble_pyStrip _ (noDouble_collapse _ h)⟩

/-- Witness for the amended C3 at a concrete input with a double
space across a sentence boundary. -/
theorem chunk_join_amended_witness :
    noDoubleSpace (joined_sentence_chunk [['a', ' '], [' ', 'b']]) = true :=
  (chunk_join_amended [['a', ' '], [' ', 'b']]).2.2.2 (by decide)

/-- C4, counterexample to the claim as stated: a page whose normalized
text has two consecutive spaces gets word count three from the split
on the single space character, while it has only two
whitespace-separated words. -/
theorem loader_word_count_counterexample :
    (mkPageRecord 0 ['a', ' ', ' ', 'b']).page_word_count = 3
    ∧ (whitespaceWords (mkPageRecord 0 ['a', ' ', ' ', 'b']).text).length = 2 := by
  constructor
  · rfl
  · rfl

/-- C4 as amended: the word count of a page record is the number of
pieces of the split of its normalized text on the single space
character, empty pieces included, which equals the number of space
characters in the text plus one; it matches the whitespace-separated
word count only when words are separated by single spaces. -/
theorem loader_word_count_amended (page_number : Nat) (raw : List Char) :
    (mkPageRecord page_number raw).page_word_count
      = ((mkPageRecord page_number raw).text.splitOn ' ').length
    ∧ (mkPageRecord page_number raw).page_word_count
      = (mkPageRecord page_number raw).text.count ' ' + 1 :=
  ⟨rfl, length_splitOn_space _⟩

/-- C5: the raw sentence count of a page record equals the number of
occurrences of the two-character period-space string in its normalized
text, plus one. -/
theorem loader_sentence_count_raw (page_number : Nat) (raw : List Char) :
    (mkPageRecord page_number raw).page_sentence_count_raw
      = countDotSpace (mkPageRecord page_number raw).text + 1 :=
  split_dot_space_length _

/-- C6: for every page record and every chunk record, the token count
times four equals the character count, exactly, over the rationals. -/
theorem token_count_exact (page_number : Nat) (raw : List Char)
    (sentence_chunk : List (List Char)) :
    (mkPageRecord page_number raw).page_token_count * 4
      = ((mkPageRecord page_number raw).page_char_count : ℚ)
    ∧ (mkChunkRecord page_number sentence_chunk).chunk_token_count * 4
      = ((mkChunkRecord page_number sentence_chunk).chunk_char_count : ℚ) := by
  constructor
  · show ((text_formatter raw).length : ℚ) / 4 * 4 = _
    rw [div_mul_cancel₀ _ (by norm_num : (4 : ℚ) ≠ 0)]
    rfl
  · show ((joined_sentence_chunk sentence_chunk).length : ℚ) / 4 * 4 = _
    rw [div_mul_cancel₀ _ (by norm_num : (4 : ℚ) ≠ 0)]
    rfl

/-- C7: for a non-empty sentence list and a positive chunk size n,
every chunk produced by split_list has between one and n sentences. -/
theorem chunker_chunk_size_bounds (l : List (List Char)) (n : Nat)
    (hl : l ≠ []) (hn : 0 < n) :
    ∀ c ∈ split_list l n, 1 ≤ c.length ∧ c.length ≤ n :=
  fun c hc => split_list_bounds l n hn c hc

/-- Witness for C7 at a concrete input: the first chunk of a
three-sentence page split at size two. -/
theorem chunker_chunk_size_bounds_witness :
    1 ≤ ([['a'], ['b']] : List (List Char)).length
    ∧ ([['a'], ['b']] : List (List Char)).length ≤ 2 :=
  chunker_chunk_size_bounds [['a'], ['b'], ['c']] 2 (by decide) (by decide)
    [['a'], ['b']] (by decide)

/-- C8: two runs of the pipeline on the same input and configuration
produce identical output rows, chunk records unconditionally and
embedding vectors under the hypothesis that the two runs embed with
the same deterministic function of the chunk text; the batch encoder
may even differ between the runs. -/
theorem pipeline_deterministic (numPages : Nat) (extract : Nat → List Char)
    (segment : List Char → List (List Char)) (e₁ e₂ : List Char → List ℚ)
    (b₁ b₂ : List (List Char) → List (List ℚ)) (n : Nat)
    (hdet : ∀ s, e₁ s = e₂ s) :
    pipeline_output numPages extract segment e₁ b₁ n
      = pipeline_output numPages extract segment e₂ b₂ n
    ∧ (pipeline_output numPages extract segment e₁ b₁ n).map (fun r => r.record)
      = (pipeline_output numPages extract segment e₂ b₂ n).map (fun r => r.record) := by
  have h : pipeline_output numPages extract segment e₁ b₁ n
      = pipeline_output numPages extract segment e₂ b₂ n := by
    show pipeline_rows numPages extract segment e₁ n
      = pipeline_rows numPages extract segment e₂ n
    unfold pipeline_rows
    apply List.map_congr_left
    intro c _
    rw [hdet]
  exact ⟨h, by rw [h]⟩

/-- Witness for C8 at a concrete one-page input, with two different
batch encoders and one embedding function. -/
theorem pipeline_deterministic_witness :
    pipeline_output 1 (fun _ => ['a', '.', ' ', 'b']) (fun t => [t])
        (fun s => [(s.length : ℚ)]) (fun _ => []) 1
      = pipeline_output 1 (fun _ => ['a', '.', ' ', 'b']) (fun t => [t])
        (fun s => [(s.length : ℚ)]) (fun _ => [[5]]) 1 :=
  (pipeline_deterministic 1 (fun _ => ['a', '.', ' ', 'b']) (fun t => [t])
    (fun s => [(s.length : ℚ)]) (fun s => [(s.length : ℚ)]) (fun _ => [])
    (fun _ => [[5]]) 1 (fun _ => rfl)).1

/-- C9: a page whose normalized text is empty still gets word count
one and raw sentence count one, because the Python split of the empty
string on an explicit separator yields one empty piece, while its
character count and token count are zero. -/
theorem loader_empty_page (page_number : Nat) (raw : List Char)
    (h : text_formatter raw = []) :
    (mkPageRecord page_number raw).page_word_count = 1
    ∧ (mkPageRecord page_number raw).page_sentence_count_raw = 1
    ∧ (mkPageRecord page_number raw).page_char_count = 0
    ∧ (mkPageRecord page_number raw).page_token_count = 0 := by
  unfold mkPageRecord
  rw [h]
  refine ⟨rfl, rfl, rfl, ?_⟩
  show ((0 : Nat) : ℚ) / 4 = 0
  norm_num

/-- Witness for C9 at the empty raw text. -/
theorem loader_empty_page_witness :
    (mkPageRecord 0 []).page_word_count = 1
    ∧ (mkPageRecord 0 []).page_sentence_count_raw = 1
    ∧ (mkPageRecord 0 []).page_char_count = 0
    ∧ (mkPageRecord 0 []).page_token_count = 0 :=
  loader_empty_page 0 [] rfl

/-- C10: the batch-computed embeddings are bound to a local value and
never stored: the output rows equal the rows of the sequential
per-chunk pass, and they are unchanged when the batch encoder is
replaced by any other. -/
theorem batch_embeddings_unused (numPages : Nat) (extract : Nat → List Char)
    (segment : List Char → List (List Char)) (embed : List Char → List ℚ)
    (b₁ b₂ : List (List Char) → List (List ℚ)) (n : Nat) :
    pipeline_output numPages extract segment embed b₁ n
      = pipeline_rows numPages extract segment embed n
    ∧ pipeline_output numPages extract segment embed b₁ n
      = pipeline_output numPages extract segment embed b₂ n :=
  ⟨rfl, rfl⟩

end Pipeline
